import Mathlib

/-!
# kecho `bench.c`: a shallow embedding and its verified properties

The benchmark driver of kecho (`bench.c`) is embedded function by function.

* C `int` values are mathematical integers (`Int`): every `int` of the file
  stays far inside its range.  C `%` and `/` are the truncating `Int.tmod`
  and `Int.tdiv`.
* `time_diff_us` computes in 64-bit `long`: each of its operations is
  reduced to the two's-complement range by `wrap_long`, as the machine
  does.  The totals of `time_res` are exact integers (a total leaves the
  range of `long` only after 2^63 microseconds of latency).
* Memory buffers (`char[]`) are lists of bytes (`Nat`, the `unsigned char`
  view that `strlen` and `strncmp` use).  A store outside `recstr` is a
  result of its own (`overrun`), not a state.
* The environment (the values returned by `rand()`, `recv()`,
  `gettimeofday()`, `socket()`, `connect()`) is an explicit argument.
* The threads at the barrier are an interleaving of statement-level steps
  under the POSIX rules for the mutex and the condition variable.
-/

namespace Kecho

/-! ## Configuration macros -/

/-- `#define MAX_MSG_LEN 32` -/
def MAX_MSG_LEN : Int := 32

/-- `#define MIN_MSG_LEN 16` -/
def MIN_MSG_LEN : Int := 16

/-- `#define MAX_THREAD 1000` -/
def MAX_THREAD : Nat := 1000

/-- The macro `MASK(num)`, with the two configuration macros it is
conditionally compiled on as explicit arguments (`#if MAX_MSG_LEN ==
MIN_MSG_LEN` ... `#elif MIN_MSG_LEN == 0` ... `#else`). -/
def MASK (maxLen minLen num : Int) : Int :=
  if maxLen = minLen then
    maxLen - 1
  else if minLen = 0 then
    if Int.land maxLen (maxLen - 1) = 0 then
      Int.land num (maxLen - 1)
    else
      Int.tmod num maxLen
  else
    Int.tmod num (maxLen - minLen) + minLen

/-! ## Message generation (`rand_string`) -/

/-- The byte stored by the conversion of an `int` to `char`. -/
def char_of_int (x : Int) : Nat := (x % 256).toNat

/-- The statement `char c = 97 + rand() % 26;` for a value `n` of `rand()`. -/
def rand_char (n : Int) : Nat := char_of_int (97 + Int.tmod n 26)

/-- The function `rand_string`.  `rnd k` is the value of the `k`-th call of
`rand()` made by this invocation: call 0 chooses the length `r`, call
`i + 1` the character at position `i`.  The result is the whole
`calloc(r + 1, 1)` buffer after the `for` loop has filled it. -/
def rand_string (maxLen minLen : Int) (rnd : Nat → Int) : List Nat :=
  let r := MASK maxLen minLen (rnd 0)
  (List.range r.toNat).foldl
    (fun str i => str.set i (rand_char (rnd (i + 1))))
    (List.replicate (r + 1).toNat 0)

/-- C library `strlen`: the number of bytes before the first zero byte. -/
def strlen : List Nat → Nat
  | [] => 0
  | c :: cs => if c = 0 then 0 else strlen cs + 1

/-- C library `strncmp`: compares at most `n` bytes as `unsigned char`,
stopping at the first difference or at a zero byte.  A list that ends early
reads as a zero byte. -/
def strncmp : List Nat → List Nat → Nat → Int
  | _, _, 0 => 0
  | s1, s2, n + 1 =>
    if s1.headD 0 ≠ s2.headD 0 then
      (s1.headD 0 : Int) - (s2.headD 0 : Int)
    else if s1.headD 0 = 0 then
      0
    else
      strncmp s1.tail s2.tail n

/-! ## Timing -/

/-- The two fields of `struct timeval` that `gettimeofday` fills, both
`long`. -/
structure timeval where
  tv_sec : Int
  tv_usec : Int
deriving DecidableEq

/-- The value a 64-bit two's-complement `long` holds for the exact result
`x` of an operation: `x` itself inside the range, `x` modulo `2^64`
outside. -/
def wrap_long (x : Int) : Int :=
  (x + 9223372036854775808) % 18446744073709551616 - 9223372036854775808

/-- The function `time_diff_us(start, end)`:
`((end->tv_sec - start->tv_sec) * 1000000) + (end->tv_usec - start->tv_usec)`,
every operation in `long`. -/
def time_diff_us (start stop : timeval) : Int :=
  wrap_long
    (wrap_long (wrap_long (stop.tv_sec - start.tv_sec) * 1000000) +
      wrap_long (stop.tv_usec - start.tv_usec))

/-- The globals `time_res` and `idx`, both guarded by `res_lock`. -/
structure results where
  time_res : List Int
  idx : Nat
deriving DecidableEq

/-- The assignment `a[i] += v` on an array `a`; an index outside the array
leaves its slots as they are. -/
def add_at : List Int → Nat → Int → List Int
  | [], _, _ => []
  | x :: xs, 0, v => (x + v) :: xs
  | x :: xs, i + 1, v => x :: add_at xs i v

/-- The critical section of `bench_worker`:
`time_res[idx++] += time_diff_us(&start, &end);` with `v` the latency. -/
def record (s : results) (v : Int) : results :=
  ⟨add_at s.time_res s.idx v, s.idx + 1⟩

/-- The indexes of `time_res` written by successive executions of the
critical section, one per latency of the list, from state `s` on. -/
def claimed : results → List Int → List Nat
  | _, [] => []
  | s, v :: vs => s.idx :: claimed (record s v) vs

/-- The static initial values `time_res = {0}` and `idx = 0`. -/
def results_init : results := ⟨List.replicate MAX_THREAD 0, 0⟩

/-! ## One worker after the barrier (`bench_worker`, from `socket` on) -/

/-- What one call of `recv` did: stored the bytes it returns the count of
(none when the peer has closed the connection, never more than the
`MAX_MSG_LEN` asked for), or failed with `-1`. -/
inductive recv_result where
  | data (bytes : List Nat)
  | error
deriving DecidableEq

/-- How the `while` loop around `recv` ends. -/
inductive loop_result where
  /-- The loop was left with this content of `recstr` and this `recvlen`. -/
  | finished (recstr : List Nat) (recvlen : Int)
  /-- A call of `recv` at offset `recvlen` stored `msglen` bytes of which
  some lie outside `recstr`. -/
  | overrun (recvlen : Int) (msglen : Nat)
  /-- No further result: `recv` does not return. -/
  | blocked
deriving DecidableEq

/-- Storing `bytes` into `buf` from offset `off` on (inside the buffer). -/
def write_at (buf : List Nat) (off : Nat) (bytes : List Nat) : List Nat :=
  buf.take off ++ bytes ++ buf.drop (off + bytes.length)

/-- The receive loop
`while ((msglen = recv(sock_fd, recstr + recvlen, MAX_MSG_LEN, 0)) &&
        (recvlen += msglen) < reqlen);`
run on the successive results of `recv`; `recstr.length` is the size of the
array `recstr`. -/
def recv_loop (reqlen : Int) : List recv_result → List Nat → Int → loop_result
  | [], _, _ => loop_result.blocked
  | recv_result.error :: rest, recstr, recvlen =>
    if recvlen + (-1) < reqlen then
      recv_loop reqlen rest recstr (recvlen + (-1))
    else
      loop_result.finished recstr (recvlen + (-1))
  | recv_result.data bytes :: rest, recstr, recvlen =>
    if bytes.length = 0 then
      loop_result.finished recstr recvlen
    else if recvlen < 0 ∨ (recstr.length : Int) < recvlen + bytes.length then
      loop_result.overrun recvlen bytes.length
    else if recvlen + bytes.length < reqlen then
      recv_loop reqlen rest (write_at recstr recvlen.toNat bytes) (recvlen + bytes.length)
    else
      loop_result.finished (write_at recstr recvlen.toNat bytes) (recvlen + bytes.length)

/-- Everything one worker gets from outside: its message, the content its
uninitialised array `recstr` happens to have, and the values returned by
`socket`, `connect`, the two `gettimeofday` calls and the `recv` calls. -/
structure worker_input where
  reqstr : List Nat
  recstr : List Nat
  socket_ret : Int
  connect_ret : Int
  start : timeval
  reads : List recv_result
  stop : timeval
deriving DecidableEq

/-- How a worker, or the whole run, ends. -/
inductive outcome where
  /-- The process was ended by `exit(-1)`; the globals were as given. -/
  | exited (s : results)
  /-- The receive loop stored bytes outside `recstr`. -/
  | overran
  /-- A call of `recv` never returned. -/
  | stalled
  /-- The worker ran to `pthread_exit`, leaving the globals as given. -/
  | done (s : results)
deriving DecidableEq

/-- The function `bench_worker` from the call of `socket` on, entered with
the globals `s` at the time the worker takes `res_lock`. -/
def bench_worker (s : results) (w : worker_input) : outcome :=
  if w.socket_ret = -1 then
    outcome.exited s
  else if w.connect_ret = -1 then
    outcome.exited s
  else
    match recv_loop (strlen w.reqstr) w.reads w.recstr 0 with
    | loop_result.blocked => outcome.stalled
    | loop_result.overrun _ _ => outcome.overran
    | loop_result.finished recstr _ =>
      if strncmp w.reqstr recstr (strlen w.reqstr) ≠ 0 then
        outcome.exited s
      else
        outcome.done (record s (time_diff_us w.start w.stop))

/-- The workers of one round, in the order in which they reach the end of
their cycle (validation and critical section); the first that does not run
to its end decides the outcome. -/
def run_workers : results → List worker_input → outcome
  | s, [] => outcome.done s
  | s, w :: ws =>
    match bench_worker s w with
    | outcome.done s1 => run_workers s1 ws
    | o => o

/-- The first `n` iterations of the `for` loop of `bench`: each creates the
workers of round `i`, joins them and then sets `idx = 0`.  `ws i` lists the
workers of round `i` in the order in which they finish. -/
def bench_rounds (ws : Nat → List worker_input) : Nat → results → outcome
  | 0, s => outcome.done s
  | n + 1, s =>
    match bench_rounds ws n s with
    | outcome.done s1 =>
      match run_workers s1 (ws n) with
      | outcome.done s2 => outcome.done ⟨s2.time_res, 0⟩
      | o => o
    | o => o

/-- Where a thread stands in the barrier: before `pthread_mutex_lock`,
before `ready += 1`, before `if (ready == MAX_THREAD)`, before
`pthread_cond_broadcast`, before the test of `while (ready < MAX_THREAD)`,
blocked inside `pthread_cond_wait`, woken and waiting to take the mutex
back, before `pthread_mutex_unlock`, and past the barrier (at `socket`). -/
inductive pc where
  | lock | incr | test | bcast | loop | wait | woken | unlock | past
deriving DecidableEq

/-- The globals of the barrier and the position of every thread. -/
structure barrier where
  ready : Int
  worker_lock : Option Nat
  exited : Bool
  pcs : Nat → pc

/-- One scheduling event: thread `t` runs its next statement, thread `t` is
woken without a broadcast, or the `pthread_cond_wait` of thread `t` fails. -/
inductive event where
  | run (t : Nat)
  | spurious (t : Nat)
  | wait_fails (t : Nat)
deriving DecidableEq

/-- The state in which `bench` starts a round (`ready = 0`, no thread
created yet). -/
def barrier_init : barrier := ⟨0, none, false, fun _ => pc.lock⟩

/-- Thread `t` moves to position `p`. -/
def move (s : barrier) (t : Nat) (p : pc) : Nat → pc :=
  fun u => if u = t then p else s.pcs u

/-- The effect of one event on a round of `thread_qty` threads whose barrier
opens at `ready == thread_qty` (both are `MAX_THREAD` in `bench`).  An event
that cannot happen in the state leaves it as it is. -/
def barrier_step (thread_qty : Nat) (s : barrier) : event → barrier
  | event.spurious t =>
    if s.exited = false ∧ t < thread_qty ∧ s.pcs t = pc.wait then
      ⟨s.ready, s.worker_lock, s.exited, move s t pc.woken⟩
    else s
  | event.wait_fails t =>
    if s.exited = false ∧ t < thread_qty ∧ s.pcs t = pc.wait then
      ⟨s.ready, s.worker_lock, true, s.pcs⟩
    else s
  | event.run t =>
    if s.exited = false ∧ t < thread_qty then
      match s.pcs t with
      | pc.lock =>
        if s.worker_lock = none then ⟨s.ready, some t, s.exited, move s t pc.incr⟩ else s
      | pc.incr => ⟨s.ready + 1, s.worker_lock, s.exited, move s t pc.test⟩
      | pc.test =>
        if s.ready = thread_qty then ⟨s.ready, s.worker_lock, s.exited, move s t pc.bcast⟩
        else ⟨s.ready, s.worker_lock, s.exited, move s t pc.loop⟩
      | pc.bcast =>
        ⟨s.ready, s.worker_lock, s.exited,
          fun u => if u = t then pc.unlock else if s.pcs u = pc.wait then pc.woken else s.pcs u⟩
      | pc.loop =>
        if s.ready < thread_qty then ⟨s.ready, none, s.exited, move s t pc.wait⟩
        else ⟨s.ready, s.worker_lock, s.exited, move s t pc.unlock⟩
      | pc.wait => s
      | pc.woken =>
        if s.worker_lock = none then ⟨s.ready, some t, s.exited, move s t pc.loop⟩ else s
      | pc.unlock => ⟨s.ready, none, s.exited, move s t pc.past⟩
      | pc.past => s
    else s

/-- The state after a sequence of events. -/
def barrier_run (thread_qty : Nat) (s : barrier) (evs : List event) : barrier :=
  evs.foldl (barrier_step thread_qty) s

/-- Whether a position lies after the statement `ready += 1`. -/
def has_arrived : pc → Bool
  | pc.lock => false
  | pc.incr => false
  | _ => true

/-- The number of threads among the first `n` that have executed
`ready += 1`. -/
def arrived (pcs : Nat → pc) : Nat → Nat
  | 0 => 0
  | n + 1 => arrived pcs n + (if has_arrived (pcs n) then 1 else 0)

/-- The invariant of the barrier: `ready` counts the threads that have
executed `ready += 1`, and a thread is at the broadcast, at the unlock or
past the barrier only when `ready` has reached `thread_qty`. -/
def barrier_inv (thread_qty : Nat) (s : barrier) : Prop :=
  s.ready = (arrived s.pcs thread_qty : Int) ∧
    ∀ t, (s.pcs t = pc.bcast ∨ s.pcs t = pc.unlock ∨ s.pcs t = pc.past) →
      (thread_qty : Int) ≤ s.ready

/-- Whether a position lies between taking `worker_lock` and giving it up. -/
def in_cs : pc → Bool
  | pc.incr => true
  | pc.test => true
  | pc.bcast => true
  | pc.loop => true
  | pc.unlock => true
  | _ => false

/-- The invariant of the mutex: a thread between lock and unlock is the one
recorded as holding `worker_lock`. -/
def lock_inv (s : barrier) : Prop :=
  ∀ t, in_cs (s.pcs t) = true → s.worker_lock = some t

/-- The schedule in which the threads `0 .. k-1` run one after the other up
to their `pthread_cond_wait`. -/
def arrive_and_wait (k : Nat) : List event :=
  (List.range k).flatMap (fun t => [event.run t, event.run t, event.run t, event.run t])

/-- The schedule in which all threads but the last arrive and wait and the
last one then arrives, broadcasts, unlocks and passes. -/
def last_opens (thread_qty : Nat) : List event :=
  arrive_and_wait (thread_qty - 1) ++
    [event.run (thread_qty - 1), event.run (thread_qty - 1), event.run (thread_qty - 1),
      event.run (thread_qty - 1), event.run (thread_qty - 1)]

/-! ## Example inputs -/

/-- A worker whose peer echoes the 16-byte message in one piece; the clock
readings are 6 microseconds apart across a change of second. -/
def echo_worker : worker_input :=
  ⟨rand_string MAX_MSG_LEN MIN_MSG_LEN (fun _ => 0), List.replicate 32 0, 3, 0,
    ⟨100, 999999⟩, [recv_result.data (List.replicate 16 97)], ⟨101, 5⟩⟩

/-- A worker whose peer returns the first byte of the 16-byte message and
then closes the connection; `recstr` held zero bytes. -/
def short_worker : worker_input :=
  ⟨rand_string MAX_MSG_LEN MIN_MSG_LEN (fun _ => 0), List.replicate 32 0, 3, 0,
    ⟨100, 999999⟩, [recv_result.data [97], recv_result.data []], ⟨101, 5⟩⟩

/-- A worker whose peer returns 15 bytes and then 32 more. -/
def flooded_worker : worker_input :=
  ⟨rand_string MAX_MSG_LEN MIN_MSG_LEN (fun _ => 0), List.replicate 32 0, 3, 0,
    ⟨100, 999999⟩,
    [recv_result.data (List.replicate 15 97), recv_result.data (List.replicate 32 97)],
    ⟨101, 5⟩⟩

/-! ## Theorems -/

theorem rand_char_range (n : Int) (hn : 0 ≤ n) :
    97 ≤ rand_char n ∧ rand_char n ≤ 122 := by
  have h1 : 0 ≤ Int.tmod n 26 := Int.tmod_nonneg 26 hn
  have h2 : Int.tmod n 26 < 26 := Int.tmod_lt_of_pos n (by norm_num)
  unfold rand_char char_of_int
  have h3 : (97 + Int.tmod n 26) % 256 = 97 + Int.tmod n 26 :=
    Int.emod_eq_of_lt (by omega) (by omega)
  rw [h3]
  omega

theorem neg_lt_tmod (a : Int) {b : Int} (hb : 0 < b) : -b < Int.tmod a b := by
  rcases Int.le_total 0 a with h | h
  · have := Int.tmod_nonneg b h
    omega
  · have h1 : Int.tmod a b = -(Int.tmod (-a) b) := by
      rw [Int.tmod_def, Int.tmod_def, Int.neg_tdiv]
      ring
    have h2 := Int.tmod_lt_of_pos (-a) hb
    omega

/-- The byte written by `rand_string` is never the terminator, whatever
`rand()` returns. -/
theorem rand_char_ne_zero (n : Int) : rand_char n ≠ 0 := by
  have h1 : -26 < Int.tmod n 26 := neg_lt_tmod n (by norm_num)
  have h2 : Int.tmod n 26 < 26 := Int.tmod_lt_of_pos n (by norm_num)
  unfold rand_char char_of_int
  have h3 : (97 + Int.tmod n 26) % 256 = 97 + Int.tmod n 26 :=
    Int.emod_eq_of_lt (by omega) (by omega)
  rw [h3]
  omega

theorem fill_loop (f : Nat → Nat) (m : Nat) :
    ∀ k, k ≤ m →
      (List.range k).foldl (fun str i => str.set i (f i)) (List.replicate (m + 1) 0)
        = (List.range k).map f ++ List.replicate (m + 1 - k) 0 := by
  intro k
  induction k with
  | zero => intro _; simp
  | succ k ih =>
    intro hk
    rw [List.range_succ, List.foldl_append, ih (by omega)]
    have h1 : m + 1 - k = (m - k) + 1 := by omega
    have h2 : m + 1 - (k + 1) = m - k := by omega
    rw [h1, h2, List.replicate_succ]
    simp [List.set_append]

theorem rand_string_eq (maxLen minLen : Int) (rnd : Nat → Int)
    (hr : 0 ≤ MASK maxLen minLen (rnd 0)) :
    rand_string maxLen minLen rnd
      = (List.range (MASK maxLen minLen (rnd 0)).toNat).map
          (fun i => rand_char (rnd (i + 1))) ++ [0] := by
  unfold rand_string
  have h : (MASK maxLen minLen (rnd 0) + 1).toNat
      = (MASK maxLen minLen (rnd 0)).toNat + 1 := by omega
  simp only [h]
  rw [fill_loop _ _ _ (Nat.le_refl _)]
  simp

theorem strlen_append_zero (l t : List Nat) (h : ∀ c ∈ l, c ≠ 0) :
    strlen (l ++ 0 :: t) = l.length := by
  induction l with
  | nil => simp [strlen]
  | cons c cs ih =>
    have hc : c ≠ 0 := h c (by simp)
    have := ih (fun x hx => h x (by simp [hx]))
    simp [strlen, hc, this]

theorem strlen_rand_string (maxLen minLen : Int) (rnd : Nat → Int)
    (hr : 0 ≤ MASK maxLen minLen (rnd 0)) :
    strlen (rand_string maxLen minLen rnd) = (MASK maxLen minLen (rnd 0)).toNat := by
  rw [rand_string_eq maxLen minLen rnd hr, strlen_append_zero]
  · simp
  · intro c hc
    simp only [List.mem_map] at hc
    obtain ⟨i, _, rfl⟩ := hc
    exact rand_char_ne_zero _

theorem MASK_default (n : Int) : MASK MAX_MSG_LEN MIN_MSG_LEN n = Int.tmod n 16 + 16 := by
  simp [MASK, MAX_MSG_LEN, MIN_MSG_LEN]

theorem MASK_default_bounds (n : Int) :
    1 ≤ MASK MAX_MSG_LEN MIN_MSG_LEN n ∧ MASK MAX_MSG_LEN MIN_MSG_LEN n < 32 ∧
      (0 ≤ n → 16 ≤ MASK MAX_MSG_LEN MIN_MSG_LEN n) := by
  rw [MASK_default]
  have h1 : -16 < Int.tmod n 16 := neg_lt_tmod n (by norm_num)
  have h2 : Int.tmod n 16 < 16 := Int.tmod_lt_of_pos n (by norm_num)
  refine ⟨by omega, by omega, fun hn => ?_⟩
  have h3 : 0 ≤ Int.tmod n 16 := Int.tmod_nonneg 16 hn
  omega

theorem MASK_equal (m n : Int) : MASK m m n = m - 1 := by
  simp [MASK]

/-- C1: with `MIN_MSG_LEN = 16` and `MAX_MSG_LEN = 32`, for every non-negative
value `n` of `rand()` the length `r = MASK(n)` chosen by `rand_string`
satisfies `16 <= r < 32`, and so does the length of the message that
`rand_string` builds from it. -/
theorem MASK_range (n : Int) (hn : 0 ≤ n) :
    (16 ≤ MASK MAX_MSG_LEN MIN_MSG_LEN n ∧ MASK MAX_MSG_LEN MIN_MSG_LEN n < 32) ∧
      ∀ rnd : Nat → Int, rnd 0 = n →
        16 ≤ strlen (rand_string MAX_MSG_LEN MIN_MSG_LEN rnd) ∧
          strlen (rand_string MAX_MSG_LEN MIN_MSG_LEN rnd) < 32 := by
  have hb := MASK_default_bounds n
  refine ⟨⟨hb.2.2 hn, hb.2.1⟩, fun rnd hrnd => ?_⟩
  have h16 := hb.2.2 hn
  rw [← hrnd] at hb h16
  rw [strlen_rand_string _ _ _ (by omega)]
  omega

theorem MASK_range_witness :
    (16 ≤ MASK MAX_MSG_LEN MIN_MSG_LEN 2147483647 ∧
        MASK MAX_MSG_LEN MIN_MSG_LEN 2147483647 < 32) ∧
      ∀ rnd : Nat → Int, rnd 0 = 2147483647 →
        16 ≤ strlen (rand_string MAX_MSG_LEN MIN_MSG_LEN rnd) ∧
          strlen (rand_string MAX_MSG_LEN MIN_MSG_LEN rnd) < 32 :=
  MASK_range 2147483647 (by decide)

/-- C9: for every sequence of non-negative `rand()` values, the buffer
returned by `rand_string` holds exactly `r` bytes, each in `97..122`,
followed by a zero terminator, where `r = MASK(rand())` is the chosen
length; hence `strlen` of it, the length the worker measures, is `r`. -/
theorem rand_string_shape (rnd : Nat → Int) (hrnd : ∀ k, 0 ≤ rnd k) :
    (rand_string MAX_MSG_LEN MIN_MSG_LEN rnd).length
        = (MASK MAX_MSG_LEN MIN_MSG_LEN (rnd 0)).toNat + 1 ∧
      (∀ i, i < (MASK MAX_MSG_LEN MIN_MSG_LEN (rnd 0)).toNat →
        97 ≤ (rand_string MAX_MSG_LEN MIN_MSG_LEN rnd).getD i 0 ∧
          (rand_string MAX_MSG_LEN MIN_MSG_LEN rnd).getD i 0 ≤ 122) ∧
      (rand_string MAX_MSG_LEN MIN_MSG_LEN rnd).getD
          (MASK MAX_MSG_LEN MIN_MSG_LEN (rnd 0)).toNat 1 = 0 ∧
      (strlen (rand_string MAX_MSG_LEN MIN_MSG_LEN rnd) : Int)
        = MASK MAX_MSG_LEN MIN_MSG_LEN (rnd 0) := by
  have hr := (MASK_default_bounds (rnd 0)).1
  have hr0 : 0 ≤ MASK MAX_MSG_LEN MIN_MSG_LEN (rnd 0) := by omega
  refine ⟨?_, ?_, ?_, ?_⟩
  · rw [rand_string_eq _ _ _ hr0]; simp
  · intro i hi
    rw [rand_string_eq _ _ _ hr0]
    rw [List.getD_append _ _ _ _ (by simpa using hi)]
    simp only [List.getD_eq_getElem?_getD, List.getElem?_map, List.getElem?_range hi]
    exact rand_char_range _ (hrnd _)
  · rw [rand_string_eq _ _ _ hr0]
    rw [List.getD_append_right _ _ _ _ (by simp)]
    simp
  · rw [strlen_rand_string _ _ _ hr0]
    omega

theorem rand_string_shape_witness :
    (strlen (rand_string MAX_MSG_LEN MIN_MSG_LEN (fun k => (k : Int) + 41)) : Int)
      = MASK MAX_MSG_LEN MIN_MSG_LEN (((0 : Nat) : Int) + 41) :=
  (rand_string_shape (fun k => (k : Int) + 41)
    (fun k => by show (0 : Int) ≤ (k : Int) + 41; omega)).2.2.2

/-- C7 as stated fails: with both bounds 32 the length chosen by the
equal-bounds branch of `MASK` is 31, and so is the length of the message. -/
theorem equal_bounds_not_max :
    MASK 32 32 0 ≠ 32 ∧ strlen (rand_string 32 32 (fun _ => 0)) ≠ 32 := by
  decide

/-- C7, amended: if `MIN_MSG_LEN == MAX_MSG_LEN` (at least 1), every
generated message has the fixed length `MAX_MSG_LEN - 1`, whatever `rand()`
returns: 31 when both bounds are 32. -/
theorem equal_bounds_length (m : Int) (rnd : Nat → Int) (hm : 1 ≤ m) :
    MASK m m (rnd 0) = m - 1 ∧ (strlen (rand_string m m rnd) : Int) = m - 1 := by
  have h0 : 0 ≤ MASK m m (rnd 0) := by rw [MASK_equal]; omega
  refine ⟨MASK_equal m (rnd 0), ?_⟩
  rw [strlen_rand_string _ _ _ h0, MASK_equal]
  omega

theorem equal_bounds_length_witness :
    MASK 32 32 ((fun k : Nat => (k : Int) - 7) 0) = 32 - 1 ∧
      (strlen (rand_string 32 32 (fun k : Nat => (k : Int) - 7)) : Int) = 32 - 1 :=
  equal_bounds_length 32 (fun k : Nat => (k : Int) - 7) (by decide)

/-! ### Array update -/

theorem add_at_length (l : List Int) : ∀ (i : Nat) (v : Int),
    (add_at l i v).length = l.length := by
  induction l with
  | nil => intro i v; rfl
  | cons x xs ih =>
    intro i v
    cases i with
    | zero => rfl
    | succ i => simp [add_at, ih]

theorem add_at_getD (l : List Int) : ∀ (i j : Nat) (v : Int),
    (add_at l i v).getD j 0 = l.getD j 0 + (if j = i ∧ i < l.length then v else 0) := by
  induction l with
  | nil => intro i j v; simp [add_at]
  | cons x xs ih =>
    intro i j v
    cases i with
    | zero =>
      cases j with
      | zero => simp [add_at]
      | succ j => simp [add_at]
    | succ i =>
      cases j with
      | zero => simp [add_at]
      | succ j =>
        simp only [add_at, List.getD_cons_succ, List.length_cons]
        rw [ih i j v]
        simp

/-! ### Timing -/

theorem strncmp_eq_zero_iff (msg t : List Nat) (hmsg : ∀ c ∈ msg, c ≠ 0) :
    ∀ buf : List Nat, strncmp (msg ++ t) buf msg.length = 0 ↔ buf.take msg.length = msg := by
  induction msg with
  | nil => intro buf; simp [strncmp]
  | cons c cs ih =>
    intro buf
    have hc : c ≠ 0 := hmsg c (by simp)
    have ih1 := ih (fun x hx => hmsg x (by simp [hx]))
    cases buf with
    | nil =>
      have : (c : Int) ≠ 0 := by exact_mod_cast hc
      simp [strncmp, hc, this]
    | cons b bs =>
      by_cases hcb : c = b
      · subst hcb
        simp [strncmp, hc, ih1 bs]
      · have h1 : (c : Int) - (b : Int) ≠ 0 := by
          intro h
          apply hcb
          have : (c : Int) = (b : Int) := by omega
          exact_mod_cast this
        have h2 : ¬ b = c := fun h => hcb h.symm
        simp [strncmp, hcb, h1, h2]

theorem rand_string_validation (rnd : Nat → Int) (buf : List Nat) :
    strncmp (rand_string MAX_MSG_LEN MIN_MSG_LEN rnd) buf
        (strlen (rand_string MAX_MSG_LEN MIN_MSG_LEN rnd)) = 0 ↔
      buf.take (strlen (rand_string MAX_MSG_LEN MIN_MSG_LEN rnd))
        = (rand_string MAX_MSG_LEN MIN_MSG_LEN rnd).take
            (strlen (rand_string MAX_MSG_LEN MIN_MSG_LEN rnd)) := by
  have hr0 : 0 ≤ MASK MAX_MSG_LEN MIN_MSG_LEN (rnd 0) := by
    have := (MASK_default_bounds (rnd 0)).1
    omega
  have hnz : ∀ c ∈ (List.range (MASK MAX_MSG_LEN MIN_MSG_LEN (rnd 0)).toNat).map
      (fun i => rand_char (rnd (i + 1))), c ≠ 0 := by
    intro c hc
    simp only [List.mem_map] at hc
    obtain ⟨i, _, rfl⟩ := hc
    exact rand_char_ne_zero _
  have hlen : ((List.range (MASK MAX_MSG_LEN MIN_MSG_LEN (rnd 0)).toNat).map
      (fun i => rand_char (rnd (i + 1)))).length
        = (MASK MAX_MSG_LEN MIN_MSG_LEN (rnd 0)).toNat := by simp
  rw [strlen_rand_string _ _ _ hr0, rand_string_eq _ _ _ hr0]
  have h := strncmp_eq_zero_iff _ [0] hnz buf
  rw [hlen] at h
  rw [h, List.take_left' hlen]

theorem bench_worker_finished (s : results) (w : worker_input) (buf : List Nat) (n : Int)
    (hsock : w.socket_ret ≠ -1) (hconn : w.connect_ret ≠ -1)
    (hloop : recv_loop (strlen w.reqstr) w.reads w.recstr 0 = loop_result.finished buf n) :
    bench_worker s w =
      if strncmp w.reqstr buf (strlen w.reqstr) = 0 then
        outcome.done (record s (time_diff_us w.start w.stop))
      else outcome.exited s := by
  unfold bench_worker
  rw [if_neg hsock, if_neg hconn, hloop]
  by_cases h : strncmp w.reqstr buf (strlen w.reqstr) = 0 <;> simp [h]

/-- C4: for every message produced by `rand_string` and every content `buf`
of the receive buffer after the receive loop, the validation
(`strncmp` over `reqlen` bytes) passes if and only if the first `reqlen`
bytes of the buffer equal the message byte for byte; when it fails the
worker ends the run by `exit(-1)` with `time_res` and `idx` as they were,
and when it passes the worker records its latency. -/
theorem validation_exact (rnd : Nat → Int) (w : worker_input) (s : results)
    (buf : List Nat) (n : Int)
    (hreq : w.reqstr = rand_string MAX_MSG_LEN MIN_MSG_LEN rnd)
    (hsock : w.socket_ret ≠ -1) (hconn : w.connect_ret ≠ -1)
    (hloop : recv_loop (strlen w.reqstr) w.reads w.recstr 0 = loop_result.finished buf n) :
    (strncmp w.reqstr buf (strlen w.reqstr) = 0 ↔
        buf.take (strlen w.reqstr) = w.reqstr.take (strlen w.reqstr)) ∧
      (buf.take (strlen w.reqstr) ≠ w.reqstr.take (strlen w.reqstr) →
        bench_worker s w = outcome.exited s) ∧
      (buf.take (strlen w.reqstr) = w.reqstr.take (strlen w.reqstr) →
        bench_worker s w = outcome.done (record s (time_diff_us w.start w.stop))) := by
  have hiff := rand_string_validation rnd buf
  rw [← hreq] at hiff
  have hw := bench_worker_finished s w buf n hsock hconn hloop
  refine ⟨hiff, fun hne => ?_, fun heq => ?_⟩
  · rw [hw, if_neg (fun h => hne (hiff.1 h))]
  · rw [hw, if_pos (hiff.2 heq)]

theorem validation_exact_witness :
    (strncmp echo_worker.reqstr (List.replicate 16 97 ++ List.replicate 16 0)
          (strlen echo_worker.reqstr) = 0 ↔
        (List.replicate 16 97 ++ List.replicate 16 0).take (strlen echo_worker.reqstr)
          = echo_worker.reqstr.take (strlen echo_worker.reqstr)) ∧
      ((List.replicate 16 97 ++ List.replicate 16 0).take (strlen echo_worker.reqstr)
          ≠ echo_worker.reqstr.take (strlen echo_worker.reqstr) →
        bench_worker ⟨[0, 0], 0⟩ echo_worker = outcome.exited ⟨[0, 0], 0⟩) ∧
      ((List.replicate 16 97 ++ List.replicate 16 0).take (strlen echo_worker.reqstr)
          = echo_worker.reqstr.take (strlen echo_worker.reqstr) →
        bench_worker ⟨[0, 0], 0⟩ echo_worker
          = outcome.done (record ⟨[0, 0], 0⟩
              (time_diff_us echo_worker.start echo_worker.stop))) :=
  validation_exact (fun _ => 0) echo_worker ⟨[0, 0], 0⟩
    (List.replicate 16 97 ++ List.replicate 16 0) 16 rfl (by decide) (by decide) (by decide)

/-! ### The receive loop -/

theorem write_at_length (buf : List Nat) (off : Nat) (bytes : List Nat)
    (h : off + bytes.length ≤ buf.length) : (write_at buf off bytes).length = buf.length := by
  unfold write_at
  simp only [List.length_append, List.length_take, List.length_drop]
  omega

theorem write_at_nil (buf : List Nat) (off : Nat) : write_at buf off [] = buf := by
  simp [write_at]

theorem write_at_write_at (buf : List Nat) (off : Nat) (a b : List Nat)
    (h : off + a.length + b.length ≤ buf.length) :
    write_at (write_at buf off a) (off + a.length) b = write_at buf off (a ++ b) := by
  have h1 : (buf.take off ++ a).length = off + a.length := by
    simp only [List.length_append, List.length_take]
    omega
  unfold write_at
  rw [List.append_assoc (buf.take off) a, ← List.append_assoc (buf.take off) a,
    List.take_left' h1]
  have h2 : off + a.length + b.length = (buf.take off ++ a).length + b.length := by rw [h1]
  rw [h2, List.drop_append, List.drop_drop]
  simp only [List.length_append, List.append_assoc]
  congr 4
  omega

theorem recv_loop_chunks (reqlen : Int) (rest : List recv_result) :
    ∀ (chunks : List (List Nat)) (buf : List Nat) (off : Nat),
      (∀ c ∈ chunks, c ≠ []) →
      ((off + chunks.flatten.length : Nat) : Int) < reqlen →
      off + chunks.flatten.length ≤ buf.length →
      recv_loop reqlen (chunks.map recv_result.data ++ recv_result.data [] :: rest) buf off
        = loop_result.finished (write_at buf off chunks.flatten)
            ((off + chunks.flatten.length : Nat) : Int) := by
  intro chunks
  induction chunks with
  | nil =>
    intro buf off _ _ _
    simp [recv_loop, write_at_nil]
  | cons c cs ih =>
    intro buf off hne hlt hle
    have hc : c.length ≠ 0 := by
      have := hne c (by simp)
      simpa using this
    have hcs : ∀ x ∈ cs, x ≠ [] := fun x hx => hne x (by simp [hx])
    simp only [List.flatten_cons, List.length_append] at hlt hle
    have h1 : ¬ (((off : Nat) : Int) < 0 ∨ (buf.length : Int) < (off : Int) + (c.length : Int)) := by
      omega
    have h2 : ((off : Nat) : Int) + (c.length : Int) < reqlen := by omega
    have h3 := ih (write_at buf off c) (off + c.length) hcs
      (by push_cast; push_cast at hlt; omega)
      (by rw [write_at_length _ _ _ (by omega)]; omega)
    simp only [List.map_cons, List.cons_append, recv_loop, if_neg hc, if_neg h1, if_pos h2,
      Int.toNat_ofNat, List.flatten_cons, List.length_append]
    have h4 : ((off : Nat) : Int) + (c.length : Int) = ((off + c.length : Nat) : Int) := by
      push_cast; rfl
    rw [h4]
    refine Eq.trans h3 ?_
    rw [write_at_write_at _ _ _ _ (by omega)]
    congr 1
    omega

theorem flatten_length_pos (cs : List (List Nat)) (hne : ∀ c ∈ cs, c ≠ []) (h : cs ≠ []) :
    0 < cs.flatten.length := by
  cases cs with
  | nil => exact absurd rfl h
  | cons c cs =>
    have hc : c ≠ [] := hne c (by simp)
    have : 0 < c.length := List.length_pos.2 hc
    simp only [List.flatten_cons, List.length_append]
    omega

theorem recv_loop_all (reqlen : Int) (rest : List recv_result) :
    ∀ (chunks : List (List Nat)) (buf : List Nat) (off : Nat),
      (∀ c ∈ chunks, c ≠ []) → chunks ≠ [] →
      ((off + chunks.flatten.length : Nat) : Int) = reqlen →
      off + chunks.flatten.length ≤ buf.length →
      recv_loop reqlen (chunks.map recv_result.data ++ rest) buf off
        = loop_result.finished (write_at buf off chunks.flatten) reqlen := by
  intro chunks
  induction chunks with
  | nil => intro buf off _ h; exact absurd rfl h
  | cons c cs ih =>
    intro buf off hne _ heq hle
    have hc : c.length ≠ 0 := by
      have := hne c (by simp)
      simpa using this
    have hcs : ∀ x ∈ cs, x ≠ [] := fun x hx => hne x (by simp [hx])
    simp only [List.flatten_cons, List.length_append] at heq hle
    have h1 : ¬ (((off : Nat) : Int) < 0 ∨ (buf.length : Int) < (off : Int) + (c.length : Int)) := by
      omega
    have h4 : ((off : Nat) : Int) + (c.length : Int) = ((off + c.length : Nat) : Int) := by
      push_cast; rfl
    by_cases hnil : cs = []
    · subst hnil
      simp only [List.flatten_nil, List.length_nil, Nat.add_zero] at heq
      have h2 : ¬ ((off : Nat) : Int) + (c.length : Int) < reqlen := by omega
      simp only [List.map_cons, List.cons_append, recv_loop, if_neg hc, if_neg h1, if_neg h2,
        Int.toNat_ofNat, List.flatten_cons, List.flatten_nil, List.append_nil]
      rw [h4, heq]
    · have hpos := flatten_length_pos cs hcs hnil
      have h2 : ((off : Nat) : Int) + (c.length : Int) < reqlen := by omega
      have h3 := ih (write_at buf off c) (off + c.length) hcs hnil
        (by rw [← heq]; push_cast; omega)
        (by rw [write_at_length _ _ _ (by omega)]; omega)
      simp only [List.map_cons, List.cons_append, recv_loop, if_neg hc, if_neg h1, if_pos h2,
        Int.toNat_ofNat, List.flatten_cons]
      rw [h4]
      refine Eq.trans h3 ?_
      rw [write_at_write_at _ _ _ _ (by omega)]

theorem take_split (l : List Nat) (k n : Nat) (h : k ≤ n) :
    l.take n = l.take k ++ (l.drop k).take (n - k) := by
  have h1 : n = k + (n - k) := by omega
  conv_lhs => rw [h1]
  exact List.take_add l k (n - k)

theorem rand_string_strlen_lt (rnd : Nat → Int) :
    strlen (rand_string MAX_MSG_LEN MIN_MSG_LEN rnd) < 32 ∧
      (rand_string MAX_MSG_LEN MIN_MSG_LEN rnd).length
        = strlen (rand_string MAX_MSG_LEN MIN_MSG_LEN rnd) + 1 := by
  have hb := MASK_default_bounds (rnd 0)
  have hr0 : 0 ≤ MASK MAX_MSG_LEN MIN_MSG_LEN (rnd 0) := by omega
  rw [strlen_rand_string _ _ _ hr0]
  refine ⟨by omega, ?_⟩
  rw [rand_string_eq _ _ _ hr0]
  simp

/-- The normal cycle: when the peer returns exactly the message, in any
number of non-empty reads, the receive loop ends with the message at the
head of `recstr`, the validation passes and the worker records its
latency. -/
theorem echo_completes (rnd : Nat → Int) (w : worker_input) (s : results)
    (chunks : List (List Nat)) (rest : List recv_result)
    (hreq : w.reqstr = rand_string MAX_MSG_LEN MIN_MSG_LEN rnd)
    (hbuf : w.recstr.length = 32)
    (hsock : w.socket_ret ≠ -1) (hconn : w.connect_ret ≠ -1)
    (hchunks : ∀ c ∈ chunks, c ≠ [])
    (hdeliv : chunks.flatten = w.reqstr.take (strlen w.reqstr))
    (hreads : w.reads = chunks.map recv_result.data ++ rest) :
    bench_worker s w = outcome.done (record s (time_diff_us w.start w.stop)) := by
  obtain ⟨hlt, hlen⟩ := rand_string_strlen_lt rnd
  rw [← hreq] at hlt hlen
  have hpos : 0 < strlen w.reqstr := by
    have hb := (MASK_default_bounds (rnd 0)).1
    have hr0 : 0 ≤ MASK MAX_MSG_LEN MIN_MSG_LEN (rnd 0) := by omega
    rw [hreq, strlen_rand_string _ _ _ hr0]
    omega
  have hfl : chunks.flatten.length = strlen w.reqstr := by
    rw [hdeliv, List.length_take]
    omega
  have hne : chunks ≠ [] := by
    intro h
    rw [h] at hfl
    simp at hfl
    omega
  have hloop := recv_loop_all (strlen w.reqstr) rest chunks w.recstr 0 hchunks hne
    (by rw [hfl]; simp) (by rw [hfl]; omega)
  rw [← hreads] at hloop
  simp only [Nat.cast_zero] at hloop
  have hiff := rand_string_validation rnd (write_at w.recstr 0 chunks.flatten)
  rw [← hreq] at hiff
  have hcmp : strncmp w.reqstr (write_at w.recstr 0 chunks.flatten) (strlen w.reqstr) = 0 := by
    rw [hiff]
    unfold write_at
    rw [List.take_zero, List.nil_append, List.take_left' hfl, hdeliv]
  rw [bench_worker_finished s w _ _ hsock hconn hloop, if_pos hcmp]

theorem short_worker_exits (s : results) :
    bench_worker s short_worker = outcome.exited s := by
  have hloop : recv_loop (strlen short_worker.reqstr) short_worker.reads short_worker.recstr 0
      = loop_result.finished (97 :: List.replicate 31 0) 1 := by decide
  have hcmp : strncmp short_worker.reqstr (97 :: List.replicate 31 0)
      (strlen short_worker.reqstr) ≠ 0 := by decide
  rw [bench_worker_finished s short_worker _ _ (by decide) (by decide) hloop, if_neg hcmp]

/-- C6 as stated fails: the peer returns the first byte of the 16-byte
message and closes; `recstr` held zero bytes; the worker ends the run by
`exit(-1)` and records nothing. -/
theorem short_read_aborts :
    short_worker.reads
        = [recv_result.data (short_worker.reqstr.take 1), recv_result.data []] ∧
      1 < strlen short_worker.reqstr ∧
      bench_worker results_init short_worker = outcome.exited results_init :=
  ⟨by decide, by decide, short_worker_exits results_init⟩

/-- C6, amended: if the peer closes the connection (a zero-length read)
after delivering, in any number of non-empty reads, only the first `k`
bytes of the sent message (`k < reqlen`), the receive loop ends normally
with `recvlen = k` and the rest of `recstr` as it was; the worker then
validates all `reqlen` bytes, so it records its latency exactly when the
bytes `k .. reqlen-1` that `recstr` already held equal those of the message,
and otherwise ends the run by `exit(-1)`. -/
theorem short_read_validated (rnd : Nat → Int) (w : worker_input) (s : results)
    (chunks : List (List Nat)) (k : Nat) (rest : List recv_result)
    (hreq : w.reqstr = rand_string MAX_MSG_LEN MIN_MSG_LEN rnd)
    (hbuf : w.recstr.length = 32)
    (hsock : w.socket_ret ≠ -1) (hconn : w.connect_ret ≠ -1)
    (hk : k < strlen w.reqstr)
    (hchunks : ∀ c ∈ chunks, c ≠ [])
    (hdeliv : chunks.flatten = w.reqstr.take k)
    (hreads : w.reads = chunks.map recv_result.data ++ recv_result.data [] :: rest) :
    recv_loop (strlen w.reqstr) w.reads w.recstr 0
        = loop_result.finished (w.reqstr.take k ++ w.recstr.drop k) k ∧
      bench_worker s w =
        if (w.recstr.drop k).take (strlen w.reqstr - k)
            = (w.reqstr.drop k).take (strlen w.reqstr - k) then
          outcome.done (record s (time_diff_us w.start w.stop))
        else outcome.exited s := by
  obtain ⟨hlt, hlen⟩ := rand_string_strlen_lt rnd
  rw [← hreq] at hlt hlen
  have hfl : chunks.flatten.length = k := by
    rw [hdeliv, List.length_take]
    omega
  have hloop : recv_loop (strlen w.reqstr) w.reads w.recstr 0
      = loop_result.finished (w.reqstr.take k ++ w.recstr.drop k) k := by
    have h := recv_loop_chunks (strlen w.reqstr) rest chunks w.recstr 0 hchunks
      (by rw [hfl]; push_cast; omega) (by rw [hfl]; omega)
    rw [hreads]
    simp only [Nat.cast_zero, Nat.zero_add] at h
    rw [h, hfl]
    have hmin : k ⊓ w.reqstr.length = k := by omega
    simp [write_at, hdeliv, hmin]
  refine ⟨hloop, ?_⟩
  have hiff := rand_string_validation rnd (w.reqstr.take k ++ w.recstr.drop k)
  rw [← hreq] at hiff
  have htk : (w.reqstr.take k).length = k := by
    rw [List.length_take]
    omega
  have hcond : strncmp w.reqstr (w.reqstr.take k ++ w.recstr.drop k) (strlen w.reqstr) = 0 ↔
      (w.recstr.drop k).take (strlen w.reqstr - k)
        = (w.reqstr.drop k).take (strlen w.reqstr - k) := by
    rw [hiff, List.take_append_eq_append_take, htk, take_split w.reqstr k _ (Nat.le_of_lt hk),
      List.take_take, Nat.min_eq_right (Nat.le_of_lt hk), List.append_right_inj]
  rw [bench_worker_finished s w _ _ hsock hconn hloop]
  by_cases h : strncmp w.reqstr (w.reqstr.take k ++ w.recstr.drop k) (strlen w.reqstr) = 0
  · rw [if_pos h, if_pos (hcond.1 h)]
  · rw [if_neg h, if_neg (fun h1 => h (hcond.2 h1))]

theorem short_read_validated_witness :
    recv_loop (strlen short_worker.reqstr) short_worker.reads short_worker.recstr 0
        = loop_result.finished
            (short_worker.reqstr.take 1 ++ short_worker.recstr.drop 1) (1 : Nat) ∧
      bench_worker ⟨[0, 0], 0⟩ short_worker =
        if (short_worker.recstr.drop 1).take (strlen short_worker.reqstr - 1)
            = (short_worker.reqstr.drop 1).take (strlen short_worker.reqstr - 1) then
          outcome.done (record ⟨[0, 0], 0⟩
            (time_diff_us short_worker.start short_worker.stop))
        else outcome.exited ⟨[0, 0], 0⟩ :=
  short_read_validated (fun _ => 0) short_worker ⟨[0, 0], 0⟩ [[97]] 1 [] rfl (by decide)
    (by decide) (by decide) (by decide) (by decide) (by decide) (by decide)

/-- C10 fails on this input: the message has 16 bytes, the peer returns 15
bytes and then 32 (each read within the `MAX_MSG_LEN` bytes asked for); the
second `recv` is handed `recstr + 15` and stores 32 bytes, 15 of them past
the end of the 32-byte array. -/
theorem recv_overruns_recstr :
    (strlen flooded_worker.reqstr = 16 ∧ flooded_worker.recstr.length = 32) ∧
      flooded_worker.reads
        = [recv_result.data (List.replicate 15 97), recv_result.data (List.replicate 32 97)] ∧
      recv_loop (strlen flooded_worker.reqstr) flooded_worker.reads flooded_worker.recstr 0
        = loop_result.overrun 15 32 ∧
      bench_worker ⟨[0, 0], 0⟩ flooded_worker = outcome.overran := by
  decide

/-! ### The result table -/

theorem foldl_record (vs : List Int) : ∀ s : results,
    (vs.foldl record s).idx = s.idx + vs.length ∧
      (vs.foldl record s).time_res.length = s.time_res.length ∧
      ∀ j, (vs.foldl record s).time_res.getD j 0
        = s.time_res.getD j 0 +
          (if s.idx ≤ j ∧ j < s.time_res.length then vs.getD (j - s.idx) 0 else 0) := by
  induction vs with
  | nil => intro s; simp
  | cons v vs ih =>
    intro s
    obtain ⟨h1, h2, h3⟩ := ih (record s v)
    simp only [List.foldl_cons]
    refine ⟨?_, ?_, ?_⟩
    · rw [h1]; simp [record]; omega
    · rw [h2]; simp [record, add_at_length]
    · intro j
      rw [h3 j]
      simp only [record, add_at_getD, add_at_length]
      by_cases hj : j < s.time_res.length
      · rcases Nat.lt_trichotomy j s.idx with h | h | h
        · have e1 : ¬ (j = s.idx ∧ s.idx < s.time_res.length) := by omega
          have e2 : ¬ (s.idx + 1 ≤ j ∧ j < s.time_res.length) := by omega
          have e3 : ¬ (s.idx ≤ j ∧ j < s.time_res.length) := by omega
          simp [e1, e2, e3]
        · have e1 : j = s.idx ∧ s.idx < s.time_res.length := by omega
          have e2 : ¬ (s.idx + 1 ≤ j ∧ j < s.time_res.length) := by omega
          have e3 : s.idx ≤ j ∧ j < s.time_res.length := by omega
          have e4 : j - s.idx = 0 := by omega
          simp [e1, e2, e3, e4]
        · have e1 : ¬ (j = s.idx ∧ s.idx < s.time_res.length) := by omega
          have e2 : s.idx + 1 ≤ j ∧ j < s.time_res.length := by omega
          have e3 : s.idx ≤ j ∧ j < s.time_res.length := by omega
          have e4 : j - s.idx = (j - (s.idx + 1)) + 1 := by omega
          rw [if_neg e1, if_pos e2, if_pos e3, e4, List.getD_cons_succ]
          simp
      · have e1 : ¬ (j = s.idx ∧ s.idx < s.time_res.length) := by omega
        have e2 : ¬ (s.idx + 1 ≤ j ∧ j < s.time_res.length) := by omega
        have e3 : ¬ (s.idx ≤ j ∧ j < s.time_res.length) := by omega
        simp [e1, e2, e3]

theorem claimed_eq (vs : List Int) : ∀ s : results,
    claimed s vs = List.range' s.idx vs.length := by
  induction vs with
  | nil => intro s; rfl
  | cons v vs ih =>
    intro s
    simp [claimed, ih, record, List.range']

theorem bench_rounds_idx (ws : Nat → List worker_input) (n : Nat) (s s1 : results)
    (h : bench_rounds ws (n + 1) s = outcome.done s1) : s1.idx = 0 := by
  simp only [bench_rounds] at h
  split at h
  · split at h
    · cases h; rfl
    · rename_i o hne
      exact (hne _ h).elim
  · rename_i o hne
    exact (hne _ h).elim

/-- C5: within one round that starts with `idx = 0`, after `k` workers
(`k <= MAX_THREAD`) have executed the critical section, `idx` equals `k`
and the `k` executions wrote the indexes `0..k-1` in this order, each once
(no index twice, every index below `MAX_THREAD`, slot `j` increased by
exactly the `j`-th latency); one execution leaves every slot other than
`time_res[idx]` unchanged, adds its latency to that slot and increments
`idx`; and `bench` leaves `idx = 0` at the end of every round. -/
theorem record_claims_distinct (s : results) (vs : List Int)
    (hidx : s.idx = 0) (hlen : s.time_res.length = MAX_THREAD)
    (hk : vs.length ≤ MAX_THREAD) :
    (vs.foldl record s).idx = vs.length ∧
      claimed s vs = List.range vs.length ∧
      (claimed s vs).Nodup ∧
      (∀ i ∈ claimed s vs, i < MAX_THREAD) ∧
      (∀ j, (vs.foldl record s).time_res.getD j 0 = s.time_res.getD j 0 + vs.getD j 0) ∧
      (∀ (t : results) (v : Int) (j : Nat), j ≠ t.idx →
        (record t v).time_res.getD j 0 = t.time_res.getD j 0) ∧
      (∀ (t : results) (v : Int), t.idx < t.time_res.length →
        (record t v).time_res.getD t.idx 0 = t.time_res.getD t.idx 0 + v ∧
          (record t v).idx = t.idx + 1) ∧
      (∀ (ws : Nat → List worker_input) (n : Nat) (s0 s1 : results),
        bench_rounds ws (n + 1) s0 = outcome.done s1 → s1.idx = 0) := by
  obtain ⟨h1, _, h3⟩ := foldl_record vs s
  have hcl : claimed s vs = List.range vs.length := by
    rw [claimed_eq, hidx, List.range_eq_range']
  refine ⟨by rw [h1, hidx]; omega, hcl, ?_, ?_, ?_, ?_, ?_, ?_⟩
  · rw [hcl]; exact List.nodup_range _
  · intro i hi
    rw [hcl, List.mem_range] at hi
    omega
  · intro j
    rw [h3 j, hidx, hlen]
    by_cases hj : j < MAX_THREAD
    · rw [if_pos ⟨Nat.zero_le _, hj⟩, Nat.sub_zero]
    · have : vs.length ≤ j := by omega
      rw [if_neg (fun h => hj h.2), List.getD_eq_default _ _ this]
  · intro t v j hj
    show (add_at t.time_res t.idx v).getD j 0 = _
    rw [add_at_getD, if_neg (fun h => hj h.1), Int.add_zero]
  · intro t v ht
    refine ⟨?_, rfl⟩
    show (add_at t.time_res t.idx v).getD t.idx 0 = _
    rw [add_at_getD, if_pos ⟨rfl, ht⟩]
  · intro ws n s0 s1 h
    exact bench_rounds_idx ws n s0 s1 h

theorem record_claims_distinct_witness :
    ([6, 7, 8].foldl record results_init).idx = [(6 : Int), 7, 8].length ∧
      claimed results_init [6, 7, 8] = List.range [(6 : Int), 7, 8].length :=
  ⟨(record_claims_distinct results_init [6, 7, 8] rfl (by simp [results_init])
      (by decide)).1,
    (record_claims_distinct results_init [6, 7, 8] rfl (by simp [results_init])
      (by decide)).2.1⟩

/-! ### The round controller -/

theorem arrived_congr (p q : Nat → pc) : ∀ n,
    (∀ u, u < n → has_arrived (p u) = has_arrived (q u)) → arrived p n = arrived q n := by
  intro n
  induction n with
  | zero => intro _; rfl
  | succ n ih =>
    intro h
    simp only [arrived]
    rw [ih (fun u hu => h u (by omega)), h n (by omega)]

theorem arrived_incr (p : Nat → pc) (t : Nat) (x : pc)
    (h0 : has_arrived (p t) = false) (h1 : has_arrived x = true) : ∀ n, t < n →
    arrived (fun u => if u = t then x else p u) n = arrived p n + 1 := by
  intro n
  induction n with
  | zero => intro h; omega
  | succ n ih =>
    intro ht
    simp only [arrived]
    by_cases htn : t = n
    · subst htn
      have hc : arrived (fun u => if u = t then x else p u) t = arrived p t := by
        apply arrived_congr
        intro u hu
        have : u ≠ t := by omega
        simp [this]
      rw [hc]
      simp [h0, h1]
    · have hn : ¬ n = t := fun h => htn h.symm
      rw [ih (by omega)]
      simp only [if_neg hn]
      omega

theorem arrived_init : ∀ n, arrived (fun _ => pc.lock) n = 0 := by
  intro n
  induction n with
  | zero => rfl
  | succ n ih => simp [arrived, ih, has_arrived]

theorem arrived_le (p : Nat → pc) : ∀ n, arrived p n ≤ n := by
  intro n
  induction n with
  | zero => exact Nat.le_refl _
  | succ n ih =>
    simp only [arrived]
    split_ifs <;> omega

theorem inv_move (n : Nat) (s : barrier) (t : Nat) (p : pc) (l : Option Nat) (e : Bool)
    (hinv : barrier_inv n s) (hclass : has_arrived p = has_arrived (s.pcs t))
    (hp : (p = pc.bcast ∨ p = pc.unlock ∨ p = pc.past) → (n : Int) ≤ s.ready) :
    barrier_inv n ⟨s.ready, l, e, move s t p⟩ := by
  refine ⟨?_, ?_⟩
  · show s.ready = (arrived (move s t p) n : Int)
    rw [hinv.1]
    congr 1
    apply arrived_congr
    intro u _
    unfold move
    by_cases hu : u = t
    · simp [hu, hclass]
    · simp [hu]
  · intro u hu
    show (n : Int) ≤ s.ready
    simp only [move] at hu
    by_cases h : u = t
    · simp only [if_pos h] at hu
      exact hp hu
    · simp only [if_neg h] at hu
      exact hinv.2 u hu

theorem barrier_step_inv (n : Nat) (s : barrier) (e : event) (hinv : barrier_inv n s) :
    barrier_inv n (barrier_step n s e) := by
  cases e with
  | spurious t =>
    simp only [barrier_step]
    split_ifs with h
    · exact inv_move n s t pc.woken _ _ hinv (by rw [h.2.2]; rfl) (by simp)
    · exact hinv
  | wait_fails t =>
    simp only [barrier_step]
    split_ifs with h
    · exact hinv
    · exact hinv
  | run t =>
    simp only [barrier_step]
    by_cases h : s.exited = false ∧ t < n
    · rw [if_pos h]
      cases hpc : s.pcs t with
        | lock =>
          simp only
          split_ifs
          · exact inv_move n s t pc.incr _ _ hinv (by rw [hpc]; rfl) (by simp)
          · exact hinv
        | incr =>
          simp only
          refine ⟨?_, ?_⟩
          · show s.ready + 1 = (arrived (move s t pc.test) n : Int)
            unfold move
            rw [arrived_incr s.pcs t pc.test (by rw [hpc]; rfl) rfl n h.2, hinv.1]
            push_cast
            rfl
          · intro u hu
            show (n : Int) ≤ s.ready + 1
            simp only [move] at hu
            by_cases hut : u = t
            · simp [hut] at hu
            · simp only [if_neg hut] at hu
              have := hinv.2 u hu
              omega
        | test =>
          simp only
          split_ifs with hr
          · exact inv_move n s t pc.bcast _ _ hinv (by rw [hpc]; rfl) (fun _ => by omega)
          · exact inv_move n s t pc.loop _ _ hinv (by rw [hpc]; rfl) (by simp)
        | bcast =>
          simp only
          have hge : (n : Int) ≤ s.ready := hinv.2 t (Or.inl hpc)
          refine ⟨?_, fun u _ => hge⟩
          show s.ready = (arrived _ n : Int)
          rw [hinv.1]
          congr 1
          apply arrived_congr
          intro u _
          by_cases hut : u = t
          · simp [hut, hpc, has_arrived]
          · by_cases hw : s.pcs u = pc.wait
            · simp [hut, hw, has_arrived]
            · simp [hut, hw]
        | loop =>
          simp only
          split_ifs with hr
          · exact inv_move n s t pc.wait _ _ hinv (by rw [hpc]; rfl) (by simp)
          · exact inv_move n s t pc.unlock _ _ hinv (by rw [hpc]; rfl) (fun _ => by omega)
        | wait => exact hinv
        | woken =>
          simp only
          split_ifs
          · exact inv_move n s t pc.loop _ _ hinv (by rw [hpc]; rfl) (by simp)
          · exact hinv
        | unlock =>
          simp only
          exact inv_move n s t pc.past _ _ hinv (by rw [hpc]; rfl)
            (fun _ => hinv.2 t (Or.inr (Or.inl hpc)))
        | past => exact hinv
    · rw [if_neg h]
      exact hinv

theorem barrier_run_inv (n : Nat) (evs : List event) : ∀ s : barrier,
    barrier_inv n s → barrier_inv n (barrier_run n s evs) := by
  induction evs with
  | nil => intro s h; exact h
  | cons e es ih =>
    intro s h
    exact ih _ (barrier_step_inv n s e h)

theorem barrier_init_inv (n : Nat) : barrier_inv n barrier_init := by
  refine ⟨?_, ?_⟩
  · show (0 : Int) = (arrived (fun _ => pc.lock) n : Int)
    rw [arrived_init]
    rfl
  · intro t ht
    simp [barrier_init] at ht

theorem barrier_run_append (n : Nat) (s : barrier) (a b : List event) :
    barrier_run n s (a ++ b) = barrier_run n (barrier_run n s a) b := by
  simp [barrier_run, List.foldl_append]

theorem arrive_and_wait_succ (k : Nat) :
    arrive_and_wait (k + 1)
      = arrive_and_wait k ++ [event.run k, event.run k, event.run k, event.run k] := by
  simp [arrive_and_wait, List.range_succ]

theorem arrive_and_wait_state (n : Nat) : ∀ k, k < n →
    barrier_run n barrier_init (arrive_and_wait k)
      = ⟨k, none, false, fun u => if u < k then pc.wait else pc.lock⟩ := by
  intro k
  induction k with
  | zero =>
    intro _
    simp [arrive_and_wait, barrier_run, barrier_init]
  | succ k ih =>
    intro hk
    rw [arrive_and_wait_succ, barrier_run_append, ih (by omega)]
    have h1 : k < n := by omega
    have h2 : ¬ ((k : Int) + 1 = n) := by omega
    have h3 : (k : Int) + 1 < n := by omega
    simp [barrier_run, barrier_step, move, h1, h2, h3]
    funext u
    by_cases hu : u = k
    · simp [move, hu]
    · have : (u < k + 1) = (u < k) := by
        apply propext
        omega
      simp [move, hu, this]

theorem last_opens_state (n : Nat) (hn : 0 < n) :
    (barrier_run n barrier_init (last_opens n)).pcs (n - 1) = pc.past ∧
      (barrier_run n barrier_init (last_opens n)).ready = n := by
  unfold last_opens
  rw [barrier_run_append, arrive_and_wait_state n (n - 1) (by omega)]
  have h1 : n - 1 < n := by omega
  have h2 : ((n - 1 : Nat) : Int) + 1 = n := by omega
  simp [barrier_run, barrier_step, move, h1, h2]

theorem lock_move_keep (s : barrier) (t : Nat) (p : pc) (r : Int) (e : Bool)
    (h : lock_inv s) (ht : in_cs (s.pcs t) = true) :
    lock_inv ⟨r, s.worker_lock, e, move s t p⟩ := by
  intro u hu
  show s.worker_lock = some u
  by_cases hut : u = t
  · rw [hut]; exact h t ht
  · simp only [move, if_neg hut] at hu
    exact h u hu

theorem lock_move_acquire (s : barrier) (t : Nat) (p : pc) (r : Int) (e : Bool)
    (h : lock_inv s) (hnone : s.worker_lock = none) :
    lock_inv ⟨r, some t, e, move s t p⟩ := by
  intro u hu
  show some t = some u
  by_cases hut : u = t
  · rw [hut]
  · simp only [move, if_neg hut] at hu
    have := h u hu
    rw [hnone] at this
    cases this

theorem lock_move_release (s : barrier) (t : Nat) (p : pc) (r : Int) (e : Bool)
    (l : Option Nat) (h : lock_inv s) (ht : in_cs (s.pcs t) = true) (hp : in_cs p = false) :
    lock_inv ⟨r, l, e, move s t p⟩ := by
  intro u hu
  by_cases hut : u = t
  · simp only [move, if_pos hut] at hu
    rw [hp] at hu
    cases hu
  · simp only [move, if_neg hut] at hu
    have h1 := h u hu
    have h2 := h t ht
    rw [h1] at h2
    exact absurd (Option.some.inj h2) hut

theorem lock_move_out (s : barrier) (t : Nat) (p : pc) (e : Bool)
    (h : lock_inv s) (hp : in_cs p = false) :
    lock_inv ⟨s.ready, s.worker_lock, e, move s t p⟩ := by
  intro u hu
  show s.worker_lock = some u
  by_cases hut : u = t
  · simp only [move, if_pos hut] at hu
    rw [hp] at hu
    cases hu
  · simp only [move, if_neg hut] at hu
    exact h u hu

theorem barrier_step_lock (n : Nat) (s : barrier) (e : event) (h : lock_inv s) :
    lock_inv (barrier_step n s e) := by
  cases e with
  | spurious t =>
    simp only [barrier_step]
    split_ifs
    · exact lock_move_out s t pc.woken _ h rfl
    · exact h
  | wait_fails t =>
    simp only [barrier_step]
    split_ifs
    · exact h
    · exact h
  | run t =>
    simp only [barrier_step]
    by_cases hg : s.exited = false ∧ t < n
    · rw [if_pos hg]
      cases hpc : s.pcs t with
      | lock =>
        simp only
        split_ifs with hl
        · exact lock_move_acquire s t pc.incr _ _ h hl
        · exact h
      | incr =>
        simp only
        exact lock_move_keep s t pc.test _ _ h (by rw [hpc]; rfl)
      | test =>
        simp only
        split_ifs
        · exact lock_move_keep s t pc.bcast _ _ h (by rw [hpc]; rfl)
        · exact lock_move_keep s t pc.loop _ _ h (by rw [hpc]; rfl)
      | bcast =>
        simp only
        intro u hu
        show s.worker_lock = some u
        by_cases hut : u = t
        · rw [hut]; exact h t (by rw [hpc]; rfl)
        · simp only [if_neg hut] at hu
          by_cases hw : s.pcs u = pc.wait
          · simp only [if_pos hw] at hu
            cases hu
          · simp only [if_neg hw] at hu
            exact h u hu
      | loop =>
        simp only
        split_ifs
        · exact lock_move_release s t pc.wait _ _ _ h (by rw [hpc]; rfl) rfl
        · exact lock_move_keep s t pc.unlock _ _ h (by rw [hpc]; rfl)
      | wait => exact h
      | woken =>
        simp only
        split_ifs with hl
        · exact lock_move_acquire s t pc.loop _ _ h hl
        · exact h
      | unlock =>
        simp only
        exact lock_move_release s t pc.past _ _ _ h (by rw [hpc]; rfl) rfl
      | past => exact h
    · rw [if_neg hg]
      exact h

theorem barrier_run_lock (n : Nat) (evs : List event) : ∀ s : barrier,
    lock_inv s → lock_inv (barrier_run n s evs) := by
  induction evs with
  | nil => intro s h; exact h
  | cons e es ih =>
    intro s h
    exact ih _ (barrier_step_lock n s e h)

/-- Mutual exclusion: in every reachable state of the barrier at most one
thread is between `pthread_mutex_lock` and the release of `worker_lock`, so
`ready += 1` and the tests of `ready` of one thread run without any other
thread touching `ready`. -/
theorem barrier_mutex (n : Nat) (evs : List event) (t u : Nat)
    (ht : in_cs ((barrier_run n barrier_init evs).pcs t) = true)
    (hu : in_cs ((barrier_run n barrier_init evs).pcs u) = true) : t = u := by
  have hinv : lock_inv (barrier_run n barrier_init evs) :=
    barrier_run_lock n evs barrier_init (fun v hv => by simp [barrier_init, in_cs] at hv)
  have h1 := hinv t ht
  have h2 := hinv u hu
  rw [h1] at h2
  exact Option.some.inj h2

/-- C3: in the interleavings of one round's barrier (`ready` starts at 0;
every thread takes `worker_lock`, increments `ready`, and either finds
`ready == MAX_THREAD`, broadcasts and goes on, or waits until it observes
that `ready < MAX_THREAD` is false), `ready` always equals the number of
threads that have arrived, and no reachable state has a thread past the
barrier (at `socket`) while `ready < MAX_THREAD`, that is while fewer than
`MAX_THREAD` threads have arrived. -/
theorem barrier_no_early_pass (evs : List event) (t : Nat) :
    (barrier_run MAX_THREAD barrier_init evs).ready
        = (arrived (barrier_run MAX_THREAD barrier_init evs).pcs MAX_THREAD : Int) ∧
      ((barrier_run MAX_THREAD barrier_init evs).pcs t = pc.past →
        ¬ (barrier_run MAX_THREAD barrier_init evs).ready < (MAX_THREAD : Int) ∧
          ¬ arrived (barrier_run MAX_THREAD barrier_init evs).pcs MAX_THREAD < MAX_THREAD) := by
  have hinv := barrier_run_inv MAX_THREAD evs barrier_init (barrier_init_inv MAX_THREAD)
  refine ⟨hinv.1, fun hpast => ?_⟩
  have h1 := hinv.2 t (Or.inr (Or.inr hpast))
  have h2 := hinv.1
  constructor <;> omega

theorem barrier_no_early_pass_witness :
    (barrier_run MAX_THREAD barrier_init (last_opens MAX_THREAD)).pcs (MAX_THREAD - 1)
        = pc.past ∧
      ¬ (barrier_run MAX_THREAD barrier_init (last_opens MAX_THREAD)).ready
          < (MAX_THREAD : Int) :=
  ⟨(last_opens_state MAX_THREAD (by decide)).1,
    ((barrier_no_early_pass (last_opens MAX_THREAD) (MAX_THREAD - 1)).2
      (last_opens_state MAX_THREAD (by decide)).1).1⟩

end Kecho
